import Mathlib

/-!
# Verification of the raw-pointer doubly-linked list (`src/solutions/src/list.rs`)

Shallow embedding of `LinkedList<T>` from the repository.  A raw pointer
(`NodePtr<T> = *mut Node<T>`) is modelled as `Option Nat` — `none` is the null
pointer, `some a` is the address `a`.  The heap of live nodes is an association
list from addresses to nodes; a fresh-address counter models the allocator
(addresses are never reused, a sound abstraction for these properties since the
code never compares a live pointer with a dangling one).

Every `unsafe` dereference or write of the Rust code becomes a heap lookup that
fails (`Option.none` of the surrounding operation) when the address is not
live; the Rust `while` loops (`for_each`, `Drop::drop`, iterator exhaustion)
are given explicit fuel, and exhausted fuel is likewise the error branch.
-/

namespace RustList

/-- `Node<T>`: payload plus successor/predecessor pointers
(`next`/`prev : NodePtr<T>`, null = `none`). -/
structure Node (T : Type) where
  data : T
  next : Option Nat
  prev : Option Nat
  deriving Repr, DecidableEq

/-- The heap of currently-live nodes: an association list address ↦ node. -/
def Heap (T : Type) : Type := List (Nat × Node T)

/-- Dereference an address: the node stored there, or `none` if not live. -/
def hLookup {T : Type} : Heap T → Nat → Option (Node T)
  | [], _ => none
  | (a, nd) :: h, p => if a = p then some nd else hLookup h p

/-- Deallocate the node at address `p` (Rust `raw_into_box` + drop of the box). -/
def hFree {T : Type} : Heap T → Nat → Heap T
  | [], _ => []
  | (a, nd) :: h, p => if a = p then hFree h p else (a, nd) :: hFree h p

/-- Overwrite the node stored at address `p` (a write through the pointer). -/
def hUpdate {T : Type} (h : Heap T) (p : Nat) (nd : Node T) : Heap T :=
  (p, nd) :: hFree h p

/-- `LinkedList<T>`: the two end pointers (`first`/`last`, null = `none`)
together with the heap of nodes owned by the list and the allocator counter. -/
structure LinkedList (T : Type) where
  heap : Heap T
  fresh : Nat
  first : Option Nat
  last : Option Nat

/-- `LinkedList::new()`: both end pointers null, nothing allocated. -/
def LinkedList.new (T : Type) : LinkedList T :=
  { heap := [], fresh := 0, first := none, last := none }

/-- `LinkedList::push_back`.  Allocates `Node { data: t, next: null, prev: self.last }`;
if `self.last` is null the node becomes `first`, otherwise the old last node's
`next` is set to it (error branch if that pointer is dangling); finally
`self.last` is set to the new node. -/
def push_back {T : Type} (l : LinkedList T) (t : T) : Option (LinkedList T) :=
  let new := l.fresh
  let heap1 : Heap T := (new, ⟨t, none, l.last⟩) :: l.heap
  match l.last with
  | none =>
      some { heap := heap1, fresh := new + 1, first := some new, last := some new }
  | some p =>
      match hLookup heap1 p with
      | none => none
      | some pn =>
          some { heap := hUpdate heap1 p ⟨pn.data, some new, pn.prev⟩,
                 fresh := new + 1, first := l.first, last := some new }

/-- `LinkedList::pop_back`.  `None` when `self.last` is null; otherwise reads the
last node's `prev`, makes it the new `last` (clearing `first` when it is null,
otherwise nulling the new last node's `next`), frees the old last node and
returns its payload. -/
def pop_back {T : Type} (l : LinkedList T) : Option (Option T × LinkedList T) :=
  match l.last with
  | none => some (none, l)
  | some p =>
      match hLookup l.heap p with
      | none => none
      | some last_nd =>
          match last_nd.prev with
          | none =>
              some (some last_nd.data,
                    { heap := hFree l.heap p, fresh := l.fresh,
                      first := none, last := none })
          | some q =>
              match hLookup l.heap q with
              | none => none
              | some qn =>
                  some (some last_nd.data,
                        { heap := hFree (hUpdate l.heap q ⟨qn.data, none, qn.prev⟩) p,
                          fresh := l.fresh, first := l.first, last := some q })

/-- `LinkedList::push_front`, symmetric to `push_back`. -/
def push_front {T : Type} (l : LinkedList T) (t : T) : Option (LinkedList T) :=
  let new := l.fresh
  let heap1 : Heap T := (new, ⟨t, l.first, none⟩) :: l.heap
  match l.first with
  | none =>
      some { heap := heap1, fresh := new + 1, first := some new, last := some new }
  | some p =>
      match hLookup heap1 p with
      | none => none
      | some pn =>
          some { heap := hUpdate heap1 p ⟨pn.data, pn.next, some new⟩,
                 fresh := new + 1, first := some new, last := l.last }

/-- `LinkedList::pop_front`, symmetric to `pop_back`. -/
def pop_front {T : Type} (l : LinkedList T) : Option (Option T × LinkedList T) :=
  match l.first with
  | none => some (none, l)
  | some p =>
      match hLookup l.heap p with
      | none => none
      | some first_nd =>
          match first_nd.next with
          | none =>
              some (some first_nd.data,
                    { heap := hFree l.heap p, fresh := l.fresh,
                      first := none, last := none })
          | some q =>
              match hLookup l.heap q with
              | none => none
              | some qn =>
                  some (some first_nd.data,
                        { heap := hFree (hUpdate l.heap q ⟨qn.data, qn.next, none⟩) p,
                          fresh := l.fresh, first := some q, last := l.last })

/-- `IterMut<'a, T>`: the cursor, holding the pointer of the next node to yield. -/
structure IterMut where
  next : Option Nat

/-- `LinkedList::iter_mut`: a cursor initialised to `self.first`. -/
def iter_mut {T : Type} (l : LinkedList T) : IterMut := ⟨l.first⟩

/-- `Iterator::next` for `IterMut`: `(none, it)` signals exhaustion when the
cursor is null; otherwise yields the payload at the cursor and advances the
cursor to that node's `next` (outer `none` = dangling-pointer error branch). -/
def iterNext {T : Type} (h : Heap T) (it : IterMut) : Option (Option T × IterMut) :=
  match it.next with
  | none => some (none, it)
  | some p =>
      match hLookup h p with
      | none => none
      | some nd => some (some nd.data, ⟨nd.next⟩)

/-- Run the iterator for at most `fuel` advance calls, stopping early at
exhaustion; returns the yielded payloads in order and the final cursor. -/
def iterRun {T : Type} (h : Heap T) : Nat → IterMut → Option (List T × IterMut)
  | 0, it => some ([], it)
  | fuel + 1, it =>
      match iterNext h it with
      | none => none
      | some (none, it') => some ([], it')
      | some (some d, it') =>
          match iterRun h fuel it' with
          | none => none
          | some (ds, itF) => some (d :: ds, itF)

/-- The loop of `LinkedList::for_each`: starting at the cursor, apply `f` to
each node's payload in place and advance via `next` (read after the call, which
cannot change it since `f` only sees the payload).  Also returns the list of
payloads `f` was applied to (in visit order), so the visit sequence can be
compared with the iterator's.  Fuel models the Rust `while`. -/
def for_each_loop {T : Type} (f : T → T) :
    Nat → Heap T → Option Nat → Option (Heap T × List T)
  | 0, h, cur =>
      match cur with
      | none => some (h, [])
      | some _ => none
  | fuel + 1, h, cur =>
      match cur with
      | none => some (h, [])
      | some p =>
          match hLookup h p with
          | none => none
          | some nd =>
              match for_each_loop f fuel (hUpdate h p ⟨f nd.data, nd.next, nd.prev⟩) nd.next with
              | none => none
              | some (h', tr) => some (h', nd.data :: tr)

/-- `LinkedList::for_each`: run the loop from `self.first`. -/
def for_each {T : Type} (l : LinkedList T) (f : T → T) (fuel : Nat) :
    Option (LinkedList T × List T) :=
  match for_each_loop f fuel l.heap l.first with
  | none => none
  | some (h', tr) => some ({ l with heap := h' }, tr)

/-- The loop of `impl Drop for LinkedList`: starting at `self.first`, while the
cursor is non-null, take ownership of the node (error branch if not live),
read its `next`, free it, continue at `next`.  Returns the final heap and the
payloads destroyed, in destruction order.  Fuel models the Rust `while`. -/
def drop_loop {T : Type} : Nat → Heap T → Option Nat → Option (Heap T × List T)
  | 0, h, cur =>
      match cur with
      | none => some (h, [])
      | some _ => none
  | fuel + 1, h, cur =>
      match cur with
      | none => some (h, [])
      | some p =>
          match hLookup h p with
          | none => none
          | some nd =>
              match drop_loop fuel (hFree h p) nd.next with
              | none => none
              | some (h', tr) => some (h', nd.data :: tr)

/-- `Drop::drop` for the list: walk from `self.first`. -/
def dropList {T : Type} (l : LinkedList T) (fuel : Nat) : Option (Heap T × List T) :=
  drop_loop fuel l.heap l.first

/-! ## The chain-consistency invariant -/

/-- `chainSeg h p addrs`: the addresses `addrs` form a consecutive doubly-linked
segment in `h` whose first node's `prev` is `p`: each address is live, each
node's `prev` points to the preceding address (`p` for the first), and each
node's `next` points to the following address (null for the last). -/
def chainSeg {T : Type} (h : Heap T) : Option Nat → List Nat → Prop
  | _, [] => True
  | p, a :: rest =>
      match hLookup h a with
      | none => False
      | some nd => nd.prev = p ∧ nd.next = rest.head? ∧ chainSeg h (some a) rest

/-- The list invariant, with the chain of addresses made explicit: the heap
contains exactly the chain `addrs` (a doubly-linked segment with null outer
pointers), `first`/`last` are its two ends, the addresses are distinct and all
below the allocator counter. -/
structure InvWith {T : Type} (l : LinkedList T) (addrs : List Nat) : Prop where
  chain : chainSeg l.heap none addrs
  first_eq : l.first = addrs.head?
  last_eq : l.last = addrs.getLast?
  nodup : addrs.Nodup
  bounded : ∀ a ∈ addrs, a < l.fresh
  dom : ∀ a, (hLookup l.heap a).isSome → a ∈ addrs

/-- The payloads stored along a list of addresses, in order. -/
def datas {T : Type} (h : Heap T) (addrs : List Nat) : List T :=
  addrs.filterMap (fun a => (hLookup h a).map (fun nd => nd.data))

/-- Abstraction relation: `l` is a consistent list representing the payload
sequence `m` (front to back). -/
def Repr {T : Type} (l : LinkedList T) (m : List T) : Prop :=
  ∃ addrs, InvWith l addrs ∧ datas l.heap addrs = m

/-- A concrete two-node list (payloads `10, 20`) used to instantiate the
specifications on a non-trivial state. -/
def sampleList : LinkedList Nat :=
  { heap := [(0, ⟨10, some 1, none⟩), (1, ⟨20, none, some 0⟩)],
    fresh := 2, first := some 0, last := some 1 }

/-! ## Heap lemmas -/

theorem hLookup_cons {T : Type} (a : Nat) (nd : Node T) (h : Heap T) (p : Nat) :
    hLookup ((a, nd) :: h) p = if a = p then some nd else hLookup h p := rfl

theorem hLookup_hFree {T : Type} (h : Heap T) (p q : Nat) :
    hLookup (hFree h p) q = if q = p then none else hLookup h q := by
  induction h with
  | nil => simp [hFree, hLookup]
  | cons e h ih =>
      obtain ⟨a, nd⟩ := e
      by_cases hap : a = p <;> by_cases haq : a = q <;>
        simp_all [hFree, hLookup]

theorem hLookup_hFree_self {T : Type} (h : Heap T) (p : Nat) :
    hLookup (hFree h p) p = none := by
  simp [hLookup_hFree]

theorem hLookup_hFree_ne {T : Type} (h : Heap T) (p q : Nat) (hne : q ≠ p) :
    hLookup (hFree h p) q = hLookup h q := by
  simp [hLookup_hFree, hne]

theorem hLookup_hUpdate {T : Type} (h : Heap T) (p : Nat) (nd : Node T) (q : Nat) :
    hLookup (hUpdate h p nd) q = if p = q then some nd else hLookup h q := by
  by_cases hpq : p = q
  · subst hpq; simp [hUpdate, hLookup_cons]
  · simp [hUpdate, hLookup_cons, hpq, hLookup_hFree_ne h p q (fun hh => hpq hh.symm)]

theorem hLookup_eq_none_of_all_none {T : Type} (h : Heap T)
    (H : ∀ a, hLookup h a = none) : h = [] := by
  cases h with
  | nil => rfl
  | cons e h =>
      obtain ⟨a, nd⟩ := e
      have := H a
      simp [hLookup] at this

/-! ## chainSeg lemmas -/

theorem chainSeg_nil {T : Type} (h : Heap T) (p : Option Nat) :
    chainSeg h p ([] : List Nat) := trivial

theorem chainSeg_cons {T : Type} (h : Heap T) (p : Option Nat) (a : Nat)
    (rest : List Nat) :
    chainSeg h p (a :: rest) ↔
      ∃ nd, hLookup h a = some nd ∧ nd.prev = p ∧ nd.next = rest.head? ∧
        chainSeg h (some a) rest := by
  constructor
  · intro hc
    unfold chainSeg at hc
    rcases hl : hLookup h a with _ | nd
    · rw [hl] at hc; exact absurd hc (by simp)
    · rw [hl] at hc; exact ⟨nd, rfl, hc⟩
  · rintro ⟨nd, hl, h1, h2, h3⟩
    unfold chainSeg
    rw [hl]
    exact ⟨h1, h2, h3⟩

/-- `chainSeg` only depends on the heap at the segment's own addresses. -/
theorem chainSeg_congr {T : Type} {h h' : Heap T} {addrs : List Nat}
    (H : ∀ a ∈ addrs, hLookup h' a = hLookup h a) :
    ∀ {p : Option Nat}, chainSeg h p addrs → chainSeg h' p addrs := by
  induction addrs with
  | nil => intro p _; exact chainSeg_nil h' p
  | cons a rest ih =>
      intro p hc
      rw [chainSeg_cons] at hc
      obtain ⟨nd, hl, h1, h2, h3⟩ := hc
      rw [chainSeg_cons]
      refine ⟨nd, ?_, h1, h2, ih (fun b hb => H b (List.mem_cons_of_mem a hb)) h3⟩
      rw [H a (List.mem_cons_self a rest), hl]

/-- Every address of a chain segment is live. -/
theorem chainSeg_lookup_isSome {T : Type} {h : Heap T} {addrs : List Nat} :
    ∀ {p : Option Nat}, chainSeg h p addrs → ∀ a ∈ addrs, (hLookup h a).isSome := by
  induction addrs with
  | nil => intro p _ a ha; exact absurd ha (List.not_mem_nil a)
  | cons b rest ih =>
      intro p hc a ha
      rw [chainSeg_cons] at hc
      obtain ⟨nd, hl, _, _, h3⟩ := hc
      rcases List.mem_cons.mp ha with rfl | ha
      · simp [hl]
      · exact ih h3 a ha

/-- Fields of the last node of a chain segment: it is live, its `next` is null,
and its `prev` is the second-to-last address (or the incoming pointer `p`). -/
theorem chainSeg_getLast {T : Type} {h : Heap T} {b : Nat} :
    ∀ (init : List Nat) {p : Option Nat}, chainSeg h p (init ++ [b]) →
      ∃ nd, hLookup h b = some nd ∧ nd.next = none ∧
        nd.prev = (match init.getLast? with | none => p | some q => some q) := by
  intro init
  induction init with
  | nil =>
      intro p hc
      rw [List.nil_append, chainSeg_cons] at hc
      obtain ⟨nd, hl, h1, h2, _⟩ := hc
      exact ⟨nd, hl, by simpa using h2, by simpa using h1⟩
  | cons a rest ih =>
      intro p hc
      rw [List.cons_append, chainSeg_cons] at hc
      obtain ⟨nd, _, _, _, h3⟩ := hc
      obtain ⟨nd', hl', hn', hp'⟩ := ih h3
      refine ⟨nd', hl', hn', ?_⟩
      rw [hp']
      cases rest with
      | nil => simp
      | cons c cs =>
          rw [List.getLast?_cons_cons, List.getLast?_eq_getLast (c :: cs) (by simp)]

/-! ## datas lemmas -/

theorem datas_cons_some {T : Type} (h : Heap T) (a : Nat) (rest : List Nat)
    (nd : Node T) (hl : hLookup h a = some nd) :
    datas h (a :: rest) = nd.data :: datas h rest := by
  simp [datas, List.filterMap_cons, hl]

theorem datas_congr {T : Type} {h h' : Heap T} :
    ∀ (addrs : List Nat), (∀ a ∈ addrs, hLookup h' a = hLookup h a) →
      datas h' addrs = datas h addrs := by
  intro addrs
  induction addrs with
  | nil => intro _; rfl
  | cons a rest ih =>
      intro H
      have hH := H a (List.mem_cons_self a rest)
      have ihr := ih (fun b hb => H b (List.mem_cons_of_mem a hb))
      simp only [datas, List.filterMap_cons] at ihr ⊢
      rw [hH, ihr]

theorem datas_append {T : Type} (h : Heap T) (xs ys : List Nat) :
    datas h (xs ++ ys) = datas h xs ++ datas h ys := by
  simp [datas, List.filterMap_append]

theorem datas_length {T : Type} {h : Heap T} {addrs : List Nat} :
    ∀ {p : Option Nat}, chainSeg h p addrs → (datas h addrs).length = addrs.length := by
  induction addrs with
  | nil => intro p _; rfl
  | cons a rest ih =>
      intro p hc
      rw [chainSeg_cons] at hc
      obtain ⟨nd, hl, _, _, h3⟩ := hc
      rw [datas_cons_some h a rest nd hl, List.length_cons, List.length_cons, ih h3]

theorem head?_append_left {α : Type} (xs ys : List α) (h : xs ≠ []) :
    (xs ++ ys).head? = xs.head? := by
  cases xs with
  | nil => exact absurd rfl h
  | cons a t => rfl

/-- Rebuilding a node from its fields gives the node back. -/
theorem Node.eta {T : Type} (nd : Node T) : (⟨nd.data, nd.next, nd.prev⟩ : Node T) = nd := by
  cases nd; rfl

/-! ## Specifications of the five operations, at the level of `InvWith` -/

theorem new_invWith (T : Type) : InvWith (LinkedList.new T) [] := by
  refine ⟨trivial, rfl, rfl, List.nodup_nil, ?_, ?_⟩
  · intro a ha; exact absurd ha (List.not_mem_nil a)
  · intro a ha; simp [LinkedList.new, hLookup] at ha

/-- `push_front` specification: it succeeds, allocates a node
`⟨t, old first, null⟩` at the fresh address, prepends that address to the
chain, and prepends `t` to the payload sequence. -/
theorem push_front_spec {T : Type} {l : LinkedList T} {addrs : List Nat}
    (inv : InvWith l addrs) (t : T) :
    ∃ l', push_front l t = some l' ∧
      InvWith l' (l.fresh :: addrs) ∧
      datas l'.heap (l.fresh :: addrs) = t :: datas l.heap addrs ∧
      hLookup l'.heap l.fresh = some ⟨t, l.first, none⟩ ∧
      l'.first = some l.fresh ∧ l'.fresh = l.fresh + 1 ∧
      (l.first = none → l'.last = some l.fresh) ∧
      (l.first ≠ none → l'.last = l.last) := by
  obtain ⟨hp, fr, fi, la⟩ := l
  have fresh_not_mem : fr ∉ addrs := fun hmem => lt_irrefl fr (inv.bounded fr hmem)
  cases addrs with
  | nil =>
      have hfirst : fi = none := inv.first_eq
      have hlast : la = none := inv.last_eq
      subst hfirst; subst hlast
      refine ⟨⟨(fr, ⟨t, none, none⟩) :: hp, fr + 1, some fr, some fr⟩, rfl,
        ?_, ?_, by simp [hLookup_cons], rfl, rfl, fun _ => rfl, fun hne => absurd rfl hne⟩
      · refine ⟨?_, rfl, rfl, List.nodup_singleton _, ?_, ?_⟩
        · rw [chainSeg_cons]
          exact ⟨⟨t, none, none⟩, by simp [hLookup_cons], rfl, rfl, chainSeg_nil _ _⟩
        · intro a ha
          rw [List.mem_singleton] at ha
          have ha2 : a = fr := ha
          show a < fr + 1
          omega
        · intro a ha
          rw [hLookup_cons] at ha
          by_cases hfa : fr = a
          · simp [hfa]
          · rw [if_neg hfa] at ha
            exact absurd (inv.dom a ha) (List.not_mem_nil a)
      · rw [datas_cons_some _ _ _ ⟨t, none, none⟩ (by simp [hLookup_cons])]
        rfl
  | cons a0 rest =>
      have hfirst : fi = some a0 := inv.first_eq
      subst hfirst
      have ha0mem : a0 ∈ a0 :: rest := List.mem_cons_self a0 rest
      have ha0lt : a0 < fr := inv.bounded a0 ha0mem
      have hchain := inv.chain
      rw [chainSeg_cons] at hchain
      obtain ⟨n0, hl0, hp0, hn0, hrest⟩ := hchain
      have hne0 : fr ≠ a0 := fun hh => by omega
      have hl0' : hLookup ((fr, ⟨t, some a0, none⟩) :: hp) a0 = some n0 := by
        rw [hLookup_cons, if_neg hne0, hl0]
      set h' : Heap T := hUpdate ((fr, ⟨t, some a0, none⟩) :: hp) a0
          ⟨n0.data, n0.next, some fr⟩ with hh'
      have hstep : push_front (⟨hp, fr, some a0, la⟩ : LinkedList T) t =
          some ⟨h', fr + 1, some fr, la⟩ := by
        simp only [push_front, hl0', hh']
      have look_fresh : hLookup h' fr = some ⟨t, some a0, none⟩ := by
        rw [hh', hLookup_hUpdate, if_neg (fun hh => hne0 hh.symm), hLookup_cons, if_pos rfl]
      have look_a0 : hLookup h' a0 = some ⟨n0.data, n0.next, some fr⟩ := by
        rw [hh', hLookup_hUpdate, if_pos rfl]
      have look_other : ∀ b, b ≠ a0 → b ≠ fr → hLookup h' b = hLookup hp b := by
        intro b h1 h2
        rw [hh', hLookup_hUpdate, if_neg (fun hh => h1 hh.symm), hLookup_cons,
          if_neg (fun hh => h2 hh.symm)]
      have rest_pres : ∀ b ∈ rest, hLookup h' b = hLookup hp b := by
        intro b hb
        have hba : b ≠ a0 := fun hh => (List.nodup_cons.mp inv.nodup).1 (hh ▸ hb)
        have hbf : b ≠ fr := fun hh =>
          lt_irrefl fr (hh ▸ inv.bounded b (List.mem_cons_of_mem a0 hb))
        exact look_other b hba hbf
      refine ⟨_, hstep, ?_, ?_, look_fresh, rfl, rfl, ?_, fun _ => rfl⟩
      · refine ⟨?_, rfl, ?_, ?_, ?_, ?_⟩
        · rw [chainSeg_cons]
          refine ⟨⟨t, some a0, none⟩, look_fresh, rfl, rfl, ?_⟩
          rw [chainSeg_cons]
          exact ⟨⟨n0.data, n0.next, some fr⟩, look_a0, rfl, hn0,
            chainSeg_congr rest_pres hrest⟩
        · show la = (fr :: a0 :: rest).getLast?
          rw [List.getLast?_cons_cons]
          exact inv.last_eq
        · exact List.nodup_cons.mpr ⟨fresh_not_mem, inv.nodup⟩
        · intro b hb
          show b < fr + 1
          rcases List.mem_cons.mp hb with hb1 | hb1
          · have hb2 : b = fr := hb1
            omega
          · have hlt : b < fr := inv.bounded b hb1
            omega
        · intro b hb
          by_cases hba : b = a0
          · subst hba; exact List.mem_cons_of_mem _ ha0mem
          · by_cases hbf : b = fr
            · subst hbf; exact List.mem_cons_self _ _
            · rw [look_other b hba hbf] at hb
              exact List.mem_cons_of_mem _ (inv.dom b hb)
      · rw [datas_cons_some h' fr _ ⟨t, some a0, none⟩ look_fresh,
          datas_cons_some h' a0 rest ⟨n0.data, n0.next, some fr⟩ look_a0,
          datas_cons_some hp a0 rest n0 hl0, datas_congr rest rest_pres]
      · intro hh; exact absurd hh (by simp)

/-- `pop_front` specification: on the empty list it returns nothing without
mutation; otherwise it removes and frees the head node, returns its payload,
makes the head node's `next` the new `first` (clearing `last` when that is
null, otherwise nulling the new first node's `prev`), and the invariant holds
on the rest of the chain. -/
theorem pop_front_spec {T : Type} {l : LinkedList T} {addrs : List Nat}
    (inv : InvWith l addrs) :
    (addrs = [] → pop_front l = some (none, l)) ∧
    (∀ a0 rest, addrs = a0 :: rest → ∃ nd l',
      hLookup l.heap a0 = some nd ∧
      pop_front l = some (some nd.data, l') ∧
      InvWith l' rest ∧
      datas l'.heap rest = datas l.heap rest ∧
      l'.first = nd.next ∧
      hLookup l'.heap a0 = none ∧
      l'.fresh = l.fresh ∧
      (nd.next = none → l'.last = none) ∧
      (nd.next ≠ none → l'.last = l.last)) := by
  obtain ⟨hp, fr, fi, la⟩ := l
  constructor
  · rintro rfl
    have hfirst : fi = none := inv.first_eq
    subst hfirst
    rfl
  · rintro a0 rest rfl
    have hfirst : fi = some a0 := inv.first_eq
    subst hfirst
    have hchain := inv.chain
    rw [chainSeg_cons] at hchain
    obtain ⟨n0, hl0, hp0, hn0, hrest⟩ := hchain
    cases rest with
    | nil =>
        have hnext : n0.next = none := hn0
        refine ⟨n0, ⟨hFree hp a0, fr, none, none⟩, hl0, ?_, ?_, rfl, hnext.symm,
          hLookup_hFree_self hp a0, rfl, fun _ => rfl, fun hne => absurd hnext hne⟩
        · simp only [pop_front, hl0, hnext]
        · refine ⟨chainSeg_nil _ _, rfl, rfl, List.nodup_nil, ?_, ?_⟩
          · intro b hb; exact absurd hb (List.not_mem_nil b)
          · intro b hb
            rw [hLookup_hFree] at hb
            by_cases hba : b = a0
            · rw [if_pos hba] at hb; exact absurd hb (by simp)
            · rw [if_neg hba] at hb
              have hmem := inv.dom b hb
              rw [List.mem_singleton] at hmem
              exact absurd hmem hba
    | cons a1 rest' =>
        have hnext : n0.next = some a1 := hn0
        have hchain1 := hrest
        rw [chainSeg_cons] at hchain1
        obtain ⟨n1, hl1, hp1, hn1, hrest'⟩ := hchain1
        have hnd0 : a0 ∉ a1 :: rest' := (List.nodup_cons.mp inv.nodup).1
        have hnd1 : a1 ∉ rest' := (List.nodup_cons.mp (List.nodup_cons.mp inv.nodup).2).1
        have hne01 : a0 ≠ a1 := fun hh => hnd0 (hh ▸ List.mem_cons_self a1 rest')
        set h' : Heap T := hFree (hUpdate hp a1 ⟨n1.data, n1.next, none⟩) a0 with hh'
        have look_a1 : hLookup h' a1 = some ⟨n1.data, n1.next, none⟩ := by
          rw [hh', hLookup_hFree_ne _ _ _ (fun hh => hne01 hh.symm), hLookup_hUpdate,
            if_pos rfl]
        have look_a0 : hLookup h' a0 = none := hLookup_hFree_self _ _
        have look_other : ∀ b, b ≠ a0 → b ≠ a1 → hLookup h' b = hLookup hp b := by
          intro b h1 h2
          rw [hh', hLookup_hFree_ne _ _ _ h1, hLookup_hUpdate, if_neg (fun hh => h2 hh.symm)]
        have rest_pres : ∀ b ∈ rest', hLookup h' b = hLookup hp b := by
          intro b hb
          exact look_other b (fun hh => hnd0 (hh ▸ List.mem_cons_of_mem a1 hb))
            (fun hh => hnd1 (hh ▸ hb))
        refine ⟨n0, ⟨h', fr, some a1, la⟩, hl0, ?_, ?_, ?_, hnext.symm, look_a0, rfl,
          fun hc => absurd hnext (by simp [hc]), fun _ => rfl⟩
        · simp only [pop_front, hl0, hnext, hl1, hh']
        · refine ⟨?_, rfl, ?_, (List.nodup_cons.mp inv.nodup).2, ?_, ?_⟩
          · rw [chainSeg_cons]
            exact ⟨⟨n1.data, n1.next, none⟩, look_a1, rfl, hn1,
              chainSeg_congr rest_pres hrest'⟩
          · show la = (a1 :: rest').getLast?
            rw [← List.getLast?_cons_cons (a := a0)]
            exact inv.last_eq
          · intro b hb
            exact inv.bounded b (List.mem_cons_of_mem a0 hb)
          · intro b hb
            by_cases hb0 : b = a0
            · rw [hb0, look_a0] at hb; exact absurd hb (by simp)
            · by_cases hb1 : b = a1
              · exact hb1 ▸ List.mem_cons_self a1 rest'
              · rw [look_other b hb0 hb1] at hb
                have := inv.dom b hb
                rcases List.mem_cons.mp this with hc | hc
                · exact absurd hc hb0
                · exact hc
        · rw [datas_cons_some h' a1 rest' ⟨n1.data, n1.next, none⟩ look_a1,
            datas_cons_some hp a1 rest' n1 hl1, datas_congr rest' rest_pres]

/-! ## Helpers for the tail-end operations -/

theorem getLast?_mem {α : Type} : ∀ {l : List α} {a : α}, l.getLast? = some a → a ∈ l := by
  intro l
  induction l with
  | nil => intro a h; exact absurd h (by simp)
  | cons x t ih =>
      intro a h
      cases t with
      | nil =>
          have : x = a := by simpa using h
          exact this ▸ List.mem_cons_self x []
      | cons y t2 =>
          rw [List.getLast?_cons_cons] at h
          exact List.mem_cons_of_mem x (ih h)

theorem eq_dropLast_append_of_getLast? {α : Type} {l : List α} {b : α}
    (h : l.getLast? = some b) : l = l.dropLast ++ [b] := by
  have hne : l ≠ [] := by intro hh; subst hh; simp at h
  have h2 : l.getLast hne = b := by
    have h3 := List.getLast?_eq_getLast l hne
    rw [h3] at h
    exact Option.some.inj h
  calc l = l.dropLast ++ [l.getLast hne] := (List.dropLast_append_getLast hne).symm
    _ = l.dropLast ++ [b] := by rw [h2]

theorem datas_cons_none {T : Type} (h : Heap T) (a : Nat) (rest : List Nat)
    (hl : hLookup h a = none) :
    datas h (a :: rest) = datas h rest := by
  simp [datas, List.filterMap_cons, hl]

/-- `datas` only depends on the payloads stored at the addresses. -/
theorem datas_congr_data {T : Type} {h h' : Heap T} :
    ∀ (addrs : List Nat),
      (∀ a ∈ addrs, (hLookup h' a).map (fun nd => nd.data) =
        (hLookup h a).map (fun nd => nd.data)) →
      datas h' addrs = datas h addrs := by
  intro addrs
  induction addrs with
  | nil => intro _; rfl
  | cons a rest ih =>
      intro H
      have hH := H a (List.mem_cons_self a rest)
      have ihr := ih (fun b hb => H b (List.mem_cons_of_mem a hb))
      cases hl : hLookup h a with
      | none =>
          cases hl' : hLookup h' a with
          | none =>
              rw [datas_cons_none _ _ _ hl, datas_cons_none _ _ _ hl', ihr]
          | some nd' =>
              rw [hl, hl'] at hH
              exact absurd hH (by simp)
      | some nd =>
          cases hl' : hLookup h' a with
          | none =>
              rw [hl, hl'] at hH
              exact absurd hH (by simp)
          | some nd' =>
              rw [hl, hl'] at hH
              have hd : nd'.data = nd.data := by simpa using hH
              rw [datas_cons_some _ _ _ _ hl, datas_cons_some _ _ _ _ hl', ihr, hd]

/-- Appending a freshly allocated node after the old tail `q` (whose `next`
field is redirected to the new address) extends a chain segment by one. -/
theorem chainSeg_push_back {T : Type} (hp : Heap T) (new : Nat) (t : T) :
    ∀ (addrs : List Nat) (p : Option Nat) (q : Nat) (qn : Node T),
      chainSeg hp p addrs → addrs.Nodup → new ∉ addrs →
      addrs.getLast? = some q → hLookup hp q = some qn →
      chainSeg (hUpdate ((new, (⟨t, none, some q⟩ : Node T)) :: hp) q
          ⟨qn.data, some new, qn.prev⟩) p (addrs ++ [new]) := by
  intro addrs
  induction addrs with
  | nil => intro p q qn _ _ _ hlast _; exact absurd hlast (by simp)
  | cons a rest ih =>
      intro p q qn hc hnd hnew hlast hq
      rw [chainSeg_cons] at hc
      obtain ⟨nd, hla, hprev, hnxt, hcr⟩ := hc
      have hnewa : new ≠ a := fun hh => hnew (hh ▸ List.mem_cons_self a rest)
      cases rest with
      | nil =>
          have hqa : a = q := by simpa using hlast
          subst hqa
          have hqn : qn = nd := by
            rw [hq] at hla
            exact Option.some.inj hla
          rw [List.cons_append, List.nil_append, chainSeg_cons]
          refine ⟨⟨qn.data, some new, qn.prev⟩, by rw [hLookup_hUpdate, if_pos rfl], ?_, rfl, ?_⟩
          · show qn.prev = p
            rw [hqn, hprev]
          · rw [chainSeg_cons]
            refine ⟨⟨t, none, some a⟩, ?_, rfl, rfl, chainSeg_nil _ _⟩
            rw [hLookup_hUpdate, if_neg (fun hh => hnewa hh.symm), hLookup_cons, if_pos rfl]
      | cons c rest2 =>
          have hlast2 : (c :: rest2).getLast? = some q := by
            rw [← List.getLast?_cons_cons (a := a)]
            exact hlast
          have hqmem : q ∈ c :: rest2 := getLast?_mem hlast2
          have hanotin : a ∉ c :: rest2 := (List.nodup_cons.mp hnd).1
          have haq : a ≠ q := fun hh => hanotin (hh ▸ hqmem)
          rw [List.cons_append, chainSeg_cons]
          refine ⟨nd, ?_, hprev, ?_, ?_⟩
          · rw [hLookup_hUpdate, if_neg (fun hh => haq hh.symm), hLookup_cons,
              if_neg hnewa, hla]
          · rw [hnxt, head?_append_left _ _ (by simp)]
          · exact ih (some a) q qn hcr (List.nodup_cons.mp hnd).2
              (fun hh => hnew (List.mem_cons_of_mem a hh)) hlast2 hq

/-- `push_back` specification: it succeeds, allocates `⟨t, null, old last⟩` at
the fresh address, appends that address to the chain (patching the old tail's
`next` when the list was non-empty, setting `first` when it was empty), and
appends `t` to the payload sequence. -/
theorem push_back_spec {T : Type} {l : LinkedList T} {addrs : List Nat}
    (inv : InvWith l addrs) (t : T) :
    ∃ l', push_back l t = some l' ∧
      InvWith l' (addrs ++ [l.fresh]) ∧
      datas l'.heap (addrs ++ [l.fresh]) = datas l.heap addrs ++ [t] ∧
      hLookup l'.heap l.fresh = some ⟨t, none, l.last⟩ ∧
      l'.last = some l.fresh ∧ l'.fresh = l.fresh + 1 ∧
      (l.last = none → l'.first = some l.fresh) ∧
      (∀ q, l.last = some q → l'.first = l.first ∧
        ∃ qn', hLookup l'.heap q = some qn' ∧ qn'.next = some l.fresh) := by
  obtain ⟨hp, fr, fi, la⟩ := l
  have fresh_not_mem : fr ∉ addrs := fun hmem => lt_irrefl fr (inv.bounded fr hmem)
  rcases hla : la with _ | q
  · -- the list is empty
    have haddrs : addrs = [] := by
      have h1 : addrs.getLast? = none := by rw [← inv.last_eq, hla]
      exact List.getLast?_eq_none_iff.mp h1
    subst haddrs
    have hfi : fi = none := inv.first_eq
    subst hfi; subst hla
    refine ⟨⟨(fr, ⟨t, none, none⟩) :: hp, fr + 1, some fr, some fr⟩, rfl,
      ?_, ?_, by simp [hLookup_cons], rfl, rfl, fun _ => rfl, fun q hq => by cases hq⟩
    · refine ⟨?_, rfl, rfl, List.nodup_singleton _, ?_, ?_⟩
      · rw [List.nil_append, chainSeg_cons]
        exact ⟨⟨t, none, none⟩, by simp [hLookup_cons], rfl, rfl, chainSeg_nil _ _⟩
      · intro a ha
        rw [List.nil_append, List.mem_singleton] at ha
        have ha2 : a = fr := ha
        show a < fr + 1
        omega
      · intro a ha
        rw [hLookup_cons] at ha
        by_cases hfa : fr = a
        · simp [hfa]
        · rw [if_neg hfa] at ha
          exact absurd (inv.dom a ha) (List.not_mem_nil a)
    · rw [List.nil_append,
        datas_cons_some _ _ _ ⟨t, none, none⟩ (by simp [hLookup_cons])]
      rfl
  · -- the list is non-empty, `q` is the old tail
    subst hla
    have hlast : addrs.getLast? = some q := inv.last_eq.symm
    have hqmem : q ∈ addrs := getLast?_mem hlast
    have hqlt : q < fr := inv.bounded q hqmem
    have hqfr : q ≠ fr := fun hh => by omega
    have hchain : chainSeg hp none addrs := inv.chain
    have hqsome : (hLookup hp q).isSome := chainSeg_lookup_isSome hchain q hqmem
    obtain ⟨qn, hq⟩ := Option.isSome_iff_exists.mp hqsome
    have hq1 : hLookup ((fr, (⟨t, none, some q⟩ : Node T)) :: hp) q = some qn := by
      rw [hLookup_cons, if_neg (fun hh => hqfr hh.symm), hq]
    set h' : Heap T := hUpdate ((fr, (⟨t, none, some q⟩ : Node T)) :: hp) q
        ⟨qn.data, some fr, qn.prev⟩ with hh'
    have hstep : push_back (⟨hp, fr, fi, some q⟩ : LinkedList T) t =
        some ⟨h', fr + 1, fi, some fr⟩ := by
      simp only [push_back, hq1, hh']
    have haddrs_ne : addrs ≠ [] := by
      intro hh; subst hh; simp at hlast
    have look_q : hLookup h' q = some ⟨qn.data, some fr, qn.prev⟩ := by
      rw [hh', hLookup_hUpdate, if_pos rfl]
    have look_fr : hLookup h' fr = some ⟨t, none, some q⟩ := by
      rw [hh', hLookup_hUpdate, if_neg hqfr, hLookup_cons, if_pos rfl]
    have look_other : ∀ b, b ≠ q → b ≠ fr → hLookup h' b = hLookup hp b := by
      intro b h1 h2
      rw [hh', hLookup_hUpdate, if_neg (fun hh => h1 hh.symm), hLookup_cons,
        if_neg (fun hh => h2 hh.symm)]
    have data_pres : ∀ b ∈ addrs,
        (hLookup h' b).map (fun nd => nd.data) = (hLookup hp b).map (fun nd => nd.data) := by
      intro b hb
      by_cases hbq : b = q
      · rw [hbq, look_q, hq]
        simp
      · have hbf : b ≠ fr := fun hh => fresh_not_mem (hh ▸ hb)
        rw [look_other b hbq hbf]
    refine ⟨_, hstep, ?_, ?_, look_fr, rfl, rfl, ?_, ?_⟩
    · refine ⟨?_, ?_, ?_, ?_, ?_, ?_⟩
      · exact chainSeg_push_back hp fr t addrs none q qn hchain inv.nodup
          fresh_not_mem hlast hq
      · show fi = (addrs ++ [fr]).head?
        rw [head?_append_left _ _ haddrs_ne]
        exact inv.first_eq
      · show some fr = (addrs ++ [fr]).getLast?
        rw [List.getLast?_concat]
      · rw [List.nodup_append]
        refine ⟨inv.nodup, List.nodup_singleton _, ?_⟩
        intro a ha hb
        have h2 : a = fr := List.mem_singleton.mp hb
        exact fresh_not_mem (h2 ▸ ha)
      · intro b hb
        show b < fr + 1
        rcases List.mem_append.mp hb with hb1 | hb1
        · have hlt : b < fr := inv.bounded b hb1
          omega
        · have hb2 : b = fr := List.mem_singleton.mp hb1
          omega
      · intro b hb
        by_cases hbq : b = q
        · rw [hbq]; exact List.mem_append_left _ hqmem
        · by_cases hbf : b = fr
          · rw [hbf]; exact List.mem_append_right _ (List.mem_singleton_self _)
          · rw [look_other b hbq hbf] at hb
            exact List.mem_append_left _ (inv.dom b hb)
    · rw [datas_append, datas_congr_data addrs data_pres,
        datas_cons_some h' fr [] ⟨t, none, some q⟩ look_fr]
      rfl
    · intro hh
      exact absurd hh (by simp)
    · intro q' hq'
      obtain rfl : q = q' := Option.some.inj hq'
      exact ⟨rfl, ⟨qn.data, some fr, qn.prev⟩, look_q, rfl⟩

/-- Removing the final address `b` of a chain segment (freeing it and nulling
the `next` field of the new final node `q`) leaves a chain segment. -/
theorem chainSeg_pop {T : Type} (hp : Heap T) (b : Nat) :
    ∀ (init : List Nat) (p : Option Nat) (q : Nat) (qn : Node T),
      chainSeg hp p (init ++ [b]) → (init ++ [b]).Nodup →
      init.getLast? = some q → hLookup hp q = some qn →
      chainSeg (hFree (hUpdate hp q ⟨qn.data, none, qn.prev⟩) b) p init := by
  intro init
  induction init with
  | nil => intro p q qn _ _ hlast _; exact absurd hlast (by simp)
  | cons a rest ih =>
      intro p q qn hc hnd hlast hq
      rw [List.cons_append, chainSeg_cons] at hc
      obtain ⟨nd, hla, hprev, hnxt, hcr⟩ := hc
      have hab : a ≠ b := by
        have hnotin : a ∉ rest ++ [b] := (List.nodup_cons.mp hnd).1
        intro hh
        exact hnotin (by rw [hh]; exact List.mem_append_right rest (List.mem_singleton_self b))
      cases rest with
      | nil =>
          have hqa : a = q := by simpa using hlast
          subst hqa
          have hqn : qn = nd := by
            rw [hq] at hla
            exact Option.some.inj hla
          rw [chainSeg_cons]
          refine ⟨⟨qn.data, none, qn.prev⟩, ?_, ?_, rfl, chainSeg_nil _ _⟩
          · rw [hLookup_hFree_ne _ _ _ hab, hLookup_hUpdate, if_pos rfl]
          · show qn.prev = p
            rw [hqn, hprev]
      | cons c rest2 =>
          have hlast2 : (c :: rest2).getLast? = some q := by
            rw [← List.getLast?_cons_cons (a := a)]
            exact hlast
          have hqmem : q ∈ c :: rest2 := getLast?_mem hlast2
          have hanotin : a ∉ (c :: rest2) ++ [b] := (List.nodup_cons.mp hnd).1
          have haq : a ≠ q := fun hh =>
            hanotin (hh ▸ List.mem_append_left _ hqmem)
          rw [chainSeg_cons]
          refine ⟨nd, ?_, hprev, ?_, ?_⟩
          · rw [hLookup_hFree_ne _ _ _ hab, hLookup_hUpdate,
              if_neg (fun hh => haq hh.symm), hla]
          · rw [hnxt]
            rfl
          · exact ih (some a) q qn hcr (List.nodup_cons.mp hnd).2 hlast2 hq

/-- `pop_back` specification: on the empty list it returns nothing without
mutation; otherwise it removes and frees the tail node, returns its payload,
makes the tail node's `prev` the new `last` (clearing `first` when that is
null, otherwise nulling the new last node's `next`), and the invariant holds
on the remaining chain. -/
theorem pop_back_spec {T : Type} {l : LinkedList T} {addrs : List Nat}
    (inv : InvWith l addrs) :
    (addrs = [] → pop_back l = some (none, l)) ∧
    (∀ init b, addrs = init ++ [b] → ∃ nd l',
      hLookup l.heap b = some nd ∧
      pop_back l = some (some nd.data, l') ∧
      InvWith l' init ∧
      datas l'.heap init = datas l.heap init ∧
      l'.last = nd.prev ∧
      hLookup l'.heap b = none ∧
      l'.fresh = l.fresh ∧
      (nd.prev = none → l'.first = none) ∧
      (∀ q, nd.prev = some q → l'.first = l.first ∧
        ∃ qn', hLookup l'.heap q = some qn' ∧ qn'.next = none)) := by
  obtain ⟨hp, fr, fi, la⟩ := l
  constructor
  · rintro rfl
    have hlast : la = none := inv.last_eq
    subst hlast
    rfl
  · rintro init b rfl
    have hchain : chainSeg hp none (init ++ [b]) := inv.chain
    have hlast : la = some b := by
      have h1 : la = (init ++ [b]).getLast? := inv.last_eq
      rw [h1, List.getLast?_concat]
    subst hlast
    obtain ⟨nd, hlb, hnext, hprevm⟩ := chainSeg_getLast init hchain
    have hbnotin : b ∉ init := by
      have h1 : (init ++ [b]).Nodup := inv.nodup
      rw [List.nodup_append] at h1
      exact fun hh => h1.2.2 hh (List.mem_singleton_self b)
    cases init with
    | nil =>
        have hprev : nd.prev = none := hprevm
        refine ⟨nd, ⟨hFree hp b, fr, none, none⟩, hlb, ?_, ?_, rfl, hprev.symm,
          hLookup_hFree_self hp b, rfl, fun _ => rfl, ?_⟩
        · simp only [pop_back, hlb, hprev]
        · refine ⟨chainSeg_nil _ _, rfl, rfl, List.nodup_nil, ?_, ?_⟩
          · intro x hx; exact absurd hx (List.not_mem_nil x)
          · intro x hx
            rw [hLookup_hFree] at hx
            by_cases hxb : x = b
            · rw [if_pos hxb] at hx; exact absurd hx (by simp)
            · rw [if_neg hxb] at hx
              have hmem := inv.dom x hx
              rw [List.nil_append, List.mem_singleton] at hmem
              exact absurd hmem hxb
        · intro q hq
          rw [hprev] at hq
          cases hq
    | cons c rest =>
        have hlast2 : (c :: rest).getLast? = some ((c :: rest).getLast (by simp)) :=
          List.getLast?_eq_getLast _ _
        set q : Nat := (c :: rest).getLast (by simp) with hqdef
        have hprev : nd.prev = some q := by
          rw [hprevm, hlast2]
        have hqmem : q ∈ c :: rest := getLast?_mem hlast2
        have hqb : q ≠ b := fun hh => hbnotin (hh ▸ hqmem)
        have hqsome : (hLookup hp q).isSome :=
          chainSeg_lookup_isSome hchain q (List.mem_append_left _ hqmem)
        obtain ⟨qn, hq⟩ := Option.isSome_iff_exists.mp hqsome
        set h' : Heap T := hFree (hUpdate hp q ⟨qn.data, none, qn.prev⟩) b with hh'
        have hstep : pop_back (⟨hp, fr, fi, some b⟩ : LinkedList T) =
            some (some nd.data, ⟨h', fr, fi, some q⟩) := by
          simp only [pop_back, hlb, hprev, hq, hh']
        have look_q : hLookup h' q = some ⟨qn.data, none, qn.prev⟩ := by
          rw [hh', hLookup_hFree_ne _ _ _ hqb, hLookup_hUpdate, if_pos rfl]
        have look_b : hLookup h' b = none := hLookup_hFree_self _ _
        have look_other : ∀ x, x ≠ q → x ≠ b → hLookup h' x = hLookup hp x := by
          intro x h1 h2
          rw [hh', hLookup_hFree_ne _ _ _ h2, hLookup_hUpdate,
            if_neg (fun hh => h1 hh.symm)]
        have data_pres : ∀ x ∈ c :: rest,
            (hLookup h' x).map (fun nd => nd.data) =
            (hLookup hp x).map (fun nd => nd.data) := by
          intro x hx
          by_cases hxq : x = q
          · rw [hxq, look_q, hq]
            simp
          · have hxb : x ≠ b := fun hh => hbnotin (hh ▸ hx)
            rw [look_other x hxq hxb]
        refine ⟨nd, ⟨h', fr, fi, some q⟩, hlb, hstep, ?_, ?_, hprev.symm, look_b, rfl,
          fun hc2 => absurd hprev (by simp [hc2]), ?_⟩
        · refine ⟨?_, ?_, ?_, ?_, ?_, ?_⟩
          · exact chainSeg_pop hp b (c :: rest) none q qn hchain inv.nodup hlast2 hq
          · show fi = (c :: rest).head?
            have h1 : fi = ((c :: rest) ++ [b]).head? := inv.first_eq
            rw [h1, List.cons_append]
            rfl
          · exact hlast2
          · have h1 : ((c :: rest) ++ [b]).Nodup := inv.nodup
            rw [List.nodup_append] at h1
            exact h1.1
          · intro x hx
            exact inv.bounded x (List.mem_append_left _ hx)
          · intro x hx
            by_cases hxb : x = b
            · rw [hxb, look_b] at hx; exact absurd hx (by simp)
            · by_cases hxq : x = q
              · exact hxq ▸ hqmem
              · rw [look_other x hxq hxb] at hx
                have hmem := inv.dom x hx
                rcases List.mem_append.mp hmem with h1 | h1
                · exact h1
                · exact absurd (List.mem_singleton.mp h1) hxb
        · exact datas_congr_data (c :: rest) data_pres
        · intro q' hq'
          rw [hprev] at hq'
          obtain rfl : q = q' := Option.some.inj hq'
          exact ⟨rfl, ⟨qn.data, none, qn.prev⟩, look_q, rfl⟩

/-! ## Iterator, `for_each` and destructor over a chain -/

/-- One-step unfolding of `iterRun` on a non-null cursor. -/
theorem iterRun_some_cursor {T : Type} (h : Heap T) (fuel : Nat) (p : Nat) :
    iterRun h (fuel + 1) ⟨some p⟩ =
      match hLookup h p with
      | none => none
      | some nd =>
          match iterRun h fuel ⟨nd.next⟩ with
          | none => none
          | some (ds, itF) => some (nd.data :: ds, itF) := by
  cases hl : hLookup h p with
  | none => simp [iterRun, iterNext, hl]
  | some nd => simp [iterRun, iterNext, hl]

/-- Running the iterator with one advance call more than the chain length
yields exactly the chain's payloads and leaves the cursor null (the extra call
observes exhaustion). -/
theorem iterRun_chain {T : Type} {h : Heap T} :
    ∀ (addrs : List Nat) (p : Option Nat), chainSeg h p addrs →
      iterRun h (addrs.length + 1) ⟨addrs.head?⟩ = some (datas h addrs, ⟨none⟩) := by
  intro addrs
  induction addrs with
  | nil => intro p _; rfl
  | cons a rest ih =>
      intro p hc
      rw [chainSeg_cons] at hc
      obtain ⟨nd, hl, _, hnxt, hcr⟩ := hc
      have ihr := ih (some a) hcr
      rw [← hnxt] at ihr
      show iterRun h (rest.length + 1 + 1) ⟨some a⟩ = _
      rw [iterRun_some_cursor]
      simp only [hl]
      rw [ihr, datas_cons_some h a rest nd hl]

/-- The iterator never hits the error branch over a consistent chain, whatever
the fuel: it either stops early or observes exhaustion. -/
theorem iterRun_isSome {T : Type} {h : Heap T} :
    ∀ (addrs : List Nat) (p : Option Nat), chainSeg h p addrs →
      ∀ fuel, (iterRun h fuel ⟨addrs.head?⟩).isSome := by
  intro addrs
  induction addrs with
  | nil =>
      intro p _ fuel
      cases fuel <;> rfl
  | cons a rest ih =>
      intro p hc fuel
      rw [chainSeg_cons] at hc
      obtain ⟨nd, hl, _, hnxt, hcr⟩ := hc
      cases fuel with
      | zero => rfl
      | succ n =>
          have ihr := ih (some a) hcr n
          obtain ⟨⟨ds, itF⟩, hr⟩ := Option.isSome_iff_exists.mp ihr
          show (iterRun h (n + 1) ⟨some a⟩).isSome
          simp only [iterRun, iterNext, hl, hnxt, hr]
          rfl

/-- The destructor loop, with fuel the chain length, destroys exactly the
chain's payloads in order and removes exactly the chain's addresses. -/
theorem drop_loop_chain {T : Type} :
    ∀ (addrs : List Nat) (h : Heap T) (p : Option Nat), chainSeg h p addrs → addrs.Nodup →
      ∃ h', drop_loop addrs.length h addrs.head? = some (h', datas h addrs) ∧
        ∀ x, hLookup h' x = if x ∈ addrs then none else hLookup h x := by
  intro addrs
  induction addrs with
  | nil =>
      intro h p _ _
      exact ⟨h, rfl, fun x => by simp⟩
  | cons a rest ih =>
      intro h p hc hnd
      rw [chainSeg_cons] at hc
      obtain ⟨nd, hl, _, hnxt, hcr⟩ := hc
      have hanotin : a ∉ rest := (List.nodup_cons.mp hnd).1
      have hpres : ∀ b ∈ rest, hLookup (hFree h a) b = hLookup h b :=
        fun b hb => hLookup_hFree_ne h a b (fun hh => hanotin (hh ▸ hb))
      have hcr' : chainSeg (hFree h a) (some a) rest := chainSeg_congr hpres hcr
      obtain ⟨h', hrun, hchar⟩ := ih (hFree h a) (some a) hcr' (List.nodup_cons.mp hnd).2
      refine ⟨h', ?_, ?_⟩
      · show drop_loop (rest.length + 1) h (some a) = _
        simp only [drop_loop, hl, hnxt, hrun]
        rw [datas_cons_some h a rest nd hl,
          datas_congr rest hpres]
      · intro x
        rw [hchar x]
        by_cases hxa : x = a
        · simp [hxa, hLookup_hFree_self]
        · by_cases hxr : x ∈ rest
          · simp [hxr, hxa, List.mem_cons]
          · simp [hxr, hxa, List.mem_cons, hLookup_hFree_ne h a x hxa]

/-- One-step unfolding of the `for_each` loop on a non-null cursor. -/
theorem for_each_loop_some {T : Type} (f : T → T) (fuel : Nat) (h : Heap T) (p : Nat) :
    for_each_loop f (fuel + 1) h (some p) =
      match hLookup h p with
      | none => none
      | some nd =>
          match for_each_loop f fuel (hUpdate h p ⟨f nd.data, nd.next, nd.prev⟩) nd.next with
          | none => none
          | some (h', tr) => some (h', nd.data :: tr) := by
  cases hl : hLookup h p with
  | none => simp [for_each_loop, hl]
  | some nd => simp [for_each_loop, hl]

/-- The `for_each` loop, with fuel the chain length, visits exactly the chain's
payloads in order and replaces each visited payload `d` by `f d`, touching
nothing else. -/
theorem for_each_loop_chain {T : Type} (f : T → T) :
    ∀ (addrs : List Nat) (h : Heap T) (p : Option Nat), chainSeg h p addrs → addrs.Nodup →
      ∃ h', for_each_loop f addrs.length h addrs.head? = some (h', datas h addrs) ∧
        ∀ x, hLookup h' x = if x ∈ addrs
          then (hLookup h x).map (fun nd => ⟨f nd.data, nd.next, nd.prev⟩)
          else hLookup h x := by
  intro addrs
  induction addrs with
  | nil =>
      intro h p _ _
      exact ⟨h, rfl, fun x => by simp⟩
  | cons a rest ih =>
      intro h p hc hnd
      rw [chainSeg_cons] at hc
      obtain ⟨nd, hl, _, hnxt, hcr⟩ := hc
      have hanotin : a ∉ rest := (List.nodup_cons.mp hnd).1
      set h2 : Heap T := hUpdate h a ⟨f nd.data, nd.next, nd.prev⟩ with hh2
      have hpres : ∀ b ∈ rest, hLookup h2 b = hLookup h b := by
        intro b hb
        rw [hh2, hLookup_hUpdate, if_neg (fun hh => hanotin (by rw [hh]; exact hb))]
      have hcr' : chainSeg h2 (some a) rest := chainSeg_congr hpres hcr
      obtain ⟨h', hrun, hchar⟩ := ih h2 (some a) hcr' (List.nodup_cons.mp hnd).2
      refine ⟨h', ?_, ?_⟩
      · show for_each_loop f (rest.length + 1) h (some a) = _
        rw [for_each_loop_some]
        simp only [hl]
        rw [← hh2]
        rw [← hnxt] at hrun
        rw [hrun, datas_cons_some h a rest nd hl, datas_congr rest hpres]
      · intro x
        rw [hchar x]
        by_cases hxa : x = a
        · have hlk2 : hLookup h2 x = some ⟨f nd.data, nd.next, nd.prev⟩ := by
            rw [hh2, hxa, hLookup_hUpdate, if_pos rfl]
          have hxnr : x ∉ rest := by rw [hxa]; exact hanotin
          have hxm : x ∈ a :: rest := by rw [hxa]; exact List.mem_cons_self a rest
          rw [if_neg hxnr, hlk2, if_pos hxm, hxa, hl]
          rfl
        · by_cases hxr : x ∈ rest
          · rw [if_pos hxr, if_pos (List.mem_cons_of_mem a hxr), hpres x hxr]
          · have hxnm : x ∉ a :: rest := by
              rw [List.mem_cons]
              rintro (h1 | h2)
              · exact hxa h1
              · exact hxr h2
            rw [if_neg hxr, if_neg hxnm, hh2, hLookup_hUpdate,
              if_neg (fun hh => hxa hh.symm)]

/-! ## Abstraction-level specifications -/

theorem new_repr (T : Type) : Repr (LinkedList.new T) [] := ⟨[], new_invWith T, rfl⟩

theorem push_back_repr {T : Type} {l : LinkedList T} {m : List T} (hr : Repr l m) (t : T) :
    ∃ l', push_back l t = some l' ∧ Repr l' (m ++ [t]) := by
  obtain ⟨addrs, inv, hd⟩ := hr
  obtain ⟨l', hstep, inv', hdatas, _⟩ := push_back_spec inv t
  exact ⟨l', hstep, addrs ++ [l.fresh], inv', by rw [hdatas, hd]⟩

theorem push_front_repr {T : Type} {l : LinkedList T} {m : List T} (hr : Repr l m) (t : T) :
    ∃ l', push_front l t = some l' ∧ Repr l' (t :: m) := by
  obtain ⟨addrs, inv, hd⟩ := hr
  obtain ⟨l', hstep, inv', hdatas, _⟩ := push_front_spec inv t
  exact ⟨l', hstep, l.fresh :: addrs, inv', by rw [hdatas, hd]⟩

theorem pop_back_repr {T : Type} {l : LinkedList T} {m : List T} (hr : Repr l m) :
    ∃ l', pop_back l = some (m.getLast?, l') ∧ Repr l' m.dropLast := by
  obtain ⟨addrs, inv, hd⟩ := hr
  cases haddr : addrs.getLast? with
  | none =>
      have hnil : addrs = [] := List.getLast?_eq_none_iff.mp haddr
      subst hnil
      have hm : m = [] := by rw [← hd]; rfl
      subst hm
      rw [(pop_back_spec inv).1 rfl]
      exact ⟨l, rfl, [], inv, hd⟩
  | some b =>
      have hsplit : addrs = addrs.dropLast ++ [b] := eq_dropLast_append_of_getLast? haddr
      obtain ⟨nd, l', hlb, hstep, inv', hdatas, _⟩ := (pop_back_spec inv).2 addrs.dropLast b hsplit
      have hm : m = datas l.heap addrs.dropLast ++ [nd.data] := by
        rw [← hd]
        conv_lhs => rw [hsplit]
        rw [datas_append, datas_cons_some _ _ _ _ hlb]
        rfl
      refine ⟨l', ?_, addrs.dropLast, inv', ?_⟩
      · rw [hstep, hm, List.getLast?_concat]
      · rw [hdatas, hm, List.dropLast_concat]

theorem pop_front_repr {T : Type} {l : LinkedList T} {m : List T} (hr : Repr l m) :
    ∃ l', pop_front l = some (m.head?, l') ∧ Repr l' m.tail := by
  obtain ⟨addrs, inv, hd⟩ := hr
  cases addrs with
  | nil =>
      have hm : m = [] := by rw [← hd]; rfl
      subst hm
      rw [(pop_front_spec inv).1 rfl]
      exact ⟨l, rfl, [], inv, hd⟩
  | cons a0 rest =>
      obtain ⟨nd, l', hla, hstep, inv', hdatas, _⟩ := (pop_front_spec inv).2 a0 rest rfl
      have hm : m = nd.data :: datas l.heap rest := by
        rw [← hd, datas_cons_some _ _ _ _ hla]
      refine ⟨l', ?_, rest, inv', ?_⟩
      · rw [hstep, hm]; rfl
      · rw [hdatas, hm]
        rfl

/-! ## Sequences of operations -/

/-- One public mutating call on the list. -/
inductive Op (T : Type) where
  | pushB : T → Op T
  | pushF : T → Op T
  | popB : Op T
  | popF : Op T

/-- Run one operation, keeping only the resulting list state. -/
def runOp {T : Type} (l : LinkedList T) : Op T → Option (LinkedList T)
  | Op.pushB t => push_back l t
  | Op.pushF t => push_front l t
  | Op.popB => (pop_back l).map (fun r => r.2)
  | Op.popF => (pop_front l).map (fun r => r.2)

/-- Run a sequence of operations from a starting state. -/
def runOps {T : Type} : LinkedList T → List (Op T) → Option (LinkedList T)
  | l, [] => some l
  | l, op :: ops =>
      match runOp l op with
      | none => none
      | some l' => runOps l' ops

theorem runOp_repr {T : Type} {l : LinkedList T} {m : List T} (hr : Repr l m) (op : Op T) :
    ∃ l' m', runOp l op = some l' ∧ Repr l' m' := by
  cases op with
  | pushB t =>
      obtain ⟨l', h1, h2⟩ := push_back_repr hr t
      exact ⟨l', m ++ [t], h1, h2⟩
  | pushF t =>
      obtain ⟨l', h1, h2⟩ := push_front_repr hr t
      exact ⟨l', t :: m, h1, h2⟩
  | popB =>
      obtain ⟨l', h1, h2⟩ := pop_back_repr hr
      exact ⟨l', m.dropLast, by simp [runOp, h1], h2⟩
  | popF =>
      obtain ⟨l', h1, h2⟩ := pop_front_repr hr
      exact ⟨l', m.tail, by simp [runOp, h1], h2⟩

theorem runOps_repr {T : Type} :
    ∀ (ops : List (Op T)) (l : LinkedList T) (m : List T), Repr l m →
      ∃ l' m', runOps l ops = some l' ∧ Repr l' m' := by
  intro ops
  induction ops with
  | nil => intro l m hr; exact ⟨l, m, rfl, hr⟩
  | cons op ops ih =>
      intro l m hr
      obtain ⟨l1, m1, h1, hr1⟩ := runOp_repr hr op
      obtain ⟨l', m', h2, hr2⟩ := ih l1 m1 hr1
      refine ⟨l', m', ?_, hr2⟩
      show (match runOp l op with
        | none => none
        | some l2 => runOps l2 ops) = some l'
      rw [h1]
      show runOps l1 ops = some l'
      exact h2

/-- One push call (either end). -/
inductive PushOp (T : Type) where
  | back : T → PushOp T
  | front : T → PushOp T

/-- The value a push inserts. -/
def PushOp.val {T : Type} : PushOp T → T
  | PushOp.back t => t
  | PushOp.front t => t

def runPush {T : Type} (l : LinkedList T) : PushOp T → Option (LinkedList T)
  | PushOp.back t => push_back l t
  | PushOp.front t => push_front l t

def runPushes {T : Type} : LinkedList T → List (PushOp T) → Option (LinkedList T)
  | l, [] => some l
  | l, p :: ps =>
      match runPush l p with
      | none => none
      | some l' => runPushes l' ps

theorem runPushes_repr {T : Type} :
    ∀ (ps : List (PushOp T)) (l : LinkedList T) (m : List T), Repr l m →
      ∃ l' m', runPushes l ps = some l' ∧ Repr l' m' ∧
        m'.Perm (m ++ ps.map PushOp.val) := by
  intro ps
  induction ps with
  | nil => intro l m hr; exact ⟨l, m, rfl, hr, by simp⟩
  | cons p ps ih =>
      intro l m hr
      cases p with
      | back t =>
          obtain ⟨l1, h1, hr1⟩ := push_back_repr hr t
          obtain ⟨l', m', h2, hr2, hperm⟩ := ih l1 (m ++ [t]) hr1
          refine ⟨l', m', ?_, hr2, ?_⟩
          · show (match push_back l t with
              | none => none
              | some l2 => runPushes l2 ps) = some l'
            rw [h1]
            show runPushes l1 ps = some l'
            exact h2
          · refine hperm.trans (List.Perm.of_eq ?_)
            simp [PushOp.val]
      | front t =>
          obtain ⟨l1, h1, hr1⟩ := push_front_repr hr t
          obtain ⟨l', m', h2, hr2, hperm⟩ := ih l1 (t :: m) hr1
          refine ⟨l', m', ?_, hr2, ?_⟩
          · show (match push_front l t with
              | none => none
              | some l2 => runPushes l2 ps) = some l'
            rw [h1]
            show runPushes l1 ps = some l'
            exact h2
          · refine hperm.trans ?_
            show ((t :: m) ++ ps.map PushOp.val).Perm (m ++ (PushOp.front t :: ps).map PushOp.val)
            show (t :: (m ++ ps.map PushOp.val)).Perm (m ++ t :: ps.map PushOp.val)
            exact List.perm_middle.symm

/-! ## Bulk push/pop sequences for the stack/queue laws -/

def pushBackAll {T : Type} : LinkedList T → List T → Option (LinkedList T)
  | l, [] => some l
  | l, t :: ts =>
      match push_back l t with
      | none => none
      | some l' => pushBackAll l' ts

def pushFrontAll {T : Type} : LinkedList T → List T → Option (LinkedList T)
  | l, [] => some l
  | l, t :: ts =>
      match push_front l t with
      | none => none
      | some l' => pushFrontAll l' ts

def popBackN {T : Type} : LinkedList T → Nat → Option (List (Option T) × LinkedList T)
  | l, 0 => some ([], l)
  | l, n + 1 =>
      match pop_back l with
      | none => none
      | some (v, l') =>
          match popBackN l' n with
          | none => none
          | some (vs, l'') => some (v :: vs, l'')

def popFrontN {T : Type} : LinkedList T → Nat → Option (List (Option T) × LinkedList T)
  | l, 0 => some ([], l)
  | l, n + 1 =>
      match pop_front l with
      | none => none
      | some (v, l') =>
          match popFrontN l' n with
          | none => none
          | some (vs, l'') => some (v :: vs, l'')

theorem pushBackAll_repr {T : Type} :
    ∀ (ts : List T) (l : LinkedList T) (m : List T), Repr l m →
      ∃ l', pushBackAll l ts = some l' ∧ Repr l' (m ++ ts) := by
  intro ts
  induction ts with
  | nil => intro l m hr; exact ⟨l, rfl, by simpa using hr⟩
  | cons t ts ih =>
      intro l m hr
      obtain ⟨l1, h1, hr1⟩ := push_back_repr hr t
      obtain ⟨l', h2, hr2⟩ := ih l1 (m ++ [t]) hr1
      refine ⟨l', ?_, ?_⟩
      · show (match push_back l t with
          | none => none
          | some l2 => pushBackAll l2 ts) = some l'
        rw [h1]
        show pushBackAll l1 ts = some l'
        exact h2
      · simpa using hr2

theorem pushFrontAll_repr {T : Type} :
    ∀ (ts : List T) (l : LinkedList T) (m : List T), Repr l m →
      ∃ l', pushFrontAll l ts = some l' ∧ Repr l' (ts.reverse ++ m) := by
  intro ts
  induction ts with
  | nil => intro l m hr; exact ⟨l, rfl, by simpa using hr⟩
  | cons t ts ih =>
      intro l m hr
      obtain ⟨l1, h1, hr1⟩ := push_front_repr hr t
      obtain ⟨l', h2, hr2⟩ := ih l1 (t :: m) hr1
      refine ⟨l', ?_, ?_⟩
      · show (match push_front l t with
          | none => none
          | some l2 => pushFrontAll l2 ts) = some l'
        rw [h1]
        show pushFrontAll l1 ts = some l'
        exact h2
      · simpa using hr2

theorem popBackN_repr {T : Type} (ts : List T) :
    ∀ (l : LinkedList T) (m : List T), Repr l (m ++ ts) →
      ∃ l', popBackN l ts.length = some (ts.reverse.map some, l') ∧ Repr l' m := by
  induction ts using List.reverseRecOn with
  | nil => intro l m hr; exact ⟨l, rfl, by simpa using hr⟩
  | append_singleton ys y ih =>
      intro l m hr
      have hr' : Repr l ((m ++ ys) ++ [y]) := by simpa [List.append_assoc] using hr
      obtain ⟨l1, h1, hr1⟩ := pop_back_repr hr'
      rw [List.getLast?_concat] at h1
      rw [List.dropLast_concat] at hr1
      obtain ⟨l', h2, hr2⟩ := ih l1 m hr1
      refine ⟨l', ?_, hr2⟩
      have hlen : (ys ++ [y]).length = ys.length + 1 := by simp
      rw [hlen]
      show (match pop_back l with
        | none => none
        | some (v, l2) =>
            match popBackN l2 ys.length with
            | none => none
            | some (vs, l3) => some (v :: vs, l3)) = _
      rw [h1]
      show (match popBackN l1 ys.length with
        | none => none
        | some (vs, l3) => some (some y :: vs, l3)) = _
      rw [h2]
      show some (some y :: ys.reverse.map some, l') = _
      rw [List.reverse_append]
      rfl

theorem popFrontN_repr {T : Type} :
    ∀ (ts : List T) (l : LinkedList T) (m : List T), Repr l (ts ++ m) →
      ∃ l', popFrontN l ts.length = some (ts.map some, l') ∧ Repr l' m := by
  intro ts
  induction ts with
  | nil => intro l m hr; exact ⟨l, rfl, by simpa using hr⟩
  | cons t ts ih =>
      intro l m hr
      obtain ⟨l1, h1, hr1⟩ := pop_front_repr hr
      have hh : ((t :: ts) ++ m).head? = some t := rfl
      rw [hh] at h1
      have ht : ((t :: ts) ++ m).tail = ts ++ m := rfl
      rw [ht] at hr1
      obtain ⟨l', h2, hr2⟩ := ih l1 m hr1
      refine ⟨l', ?_, hr2⟩
      show (match pop_front l with
        | none => none
        | some (v, l2) =>
            match popFrontN l2 ts.length with
            | none => none
            | some (vs, l3) => some (v :: vs, l3)) = _
      rw [h1]
      show (match popFrontN l1 ts.length with
        | none => none
        | some (vs, l3) => some (some t :: vs, l3)) = _
      rw [h2]
      rfl

/-! ## Destructor and `for_each` at the level of the invariant -/

/-- The destructor on an empty cursor is a no-op, whatever the fuel. -/
theorem drop_loop_none {T : Type} (fuel : Nat) (h : Heap T) :
    drop_loop fuel h none = some (h, []) := by
  cases fuel <;> rfl

/-- Dropping a consistent list destroys exactly its payload sequence, in
front-to-back order, and empties the heap (no leak, no double free). -/
theorem drop_spec {T : Type} {l : LinkedList T} {addrs : List Nat}
    (inv : InvWith l addrs) :
    dropList l addrs.length = some ([], datas l.heap addrs) := by
  obtain ⟨h', hrun, hchar⟩ := drop_loop_chain addrs l.heap none inv.chain inv.nodup
  have hempty : h' = [] := by
    apply hLookup_eq_none_of_all_none
    intro x
    rw [hchar x]
    by_cases hx : x ∈ addrs
    · rw [if_pos hx]
    · rw [if_neg hx]
      cases hlk : hLookup l.heap x with
      | none => rfl
      | some nd => exact absurd (inv.dom x (by simp [hlk])) hx
  show drop_loop addrs.length l.heap l.first = _
  rw [inv.first_eq, hrun, hempty]

/-- Pointwise `f`-mapping of the stored payloads maps `datas` by `f`. -/
theorem datas_map_f {T : Type} (f : T → T) {h h' : Heap T} :
    ∀ (addrs : List Nat),
      (∀ a ∈ addrs, hLookup h' a =
        (hLookup h a).map (fun nd => ⟨f nd.data, nd.next, nd.prev⟩)) →
      datas h' addrs = (datas h addrs).map f := by
  intro addrs
  induction addrs with
  | nil => intro _; rfl
  | cons a rest ih =>
      intro H
      have hH := H a (List.mem_cons_self a rest)
      have ihr := ih (fun b hb => H b (List.mem_cons_of_mem a hb))
      cases hl : hLookup h a with
      | none =>
          rw [hl] at hH
          rw [datas_cons_none _ _ _ hl, datas_cons_none _ _ _ (by simpa using hH), ihr]
      | some nd =>
          rw [hl] at hH
          rw [datas_cons_some _ _ _ nd hl,
            datas_cons_some _ _ _ ⟨f nd.data, nd.next, nd.prev⟩ (by simpa using hH), ihr]
          rfl

/-- The invariant of the concrete sample list. -/
theorem sampleList_invWith : InvWith sampleList [0, 1] := by
  refine ⟨?_, rfl, rfl, by decide, by decide, ?_⟩
  · show chainSeg sampleList.heap none [0, 1]
    rw [chainSeg_cons]
    refine ⟨⟨10, some 1, none⟩, rfl, rfl, rfl, ?_⟩
    rw [chainSeg_cons]
    exact ⟨⟨20, none, some 0⟩, rfl, rfl, rfl, trivial⟩
  · intro a ha
    show a ∈ [0, 1]
    by_cases h0 : a = 0
    · rw [h0]; exact List.mem_cons_self 0 [1]
    · by_cases h1 : a = 1
      · rw [h1]
        exact List.mem_cons_of_mem 0 (List.mem_cons_self 1 [])
      · exfalso
        have hnone : hLookup sampleList.heap a = none := by
          show hLookup [(0, (⟨10, some 1, none⟩ : Node Nat)), (1, ⟨20, none, some 0⟩)] a = none
          rw [hLookup_cons, if_neg (fun hh => h0 hh.symm), hLookup_cons,
            if_neg (fun hh => h1 hh.symm)]
          rfl
        rw [hnone] at ha
        exact absurd ha (by simp)

/-- The sample list represents the payload sequence `[10, 20]`. -/
theorem sampleList_repr : Repr sampleList [10, 20] :=
  ⟨[0, 1], sampleList_invWith, rfl⟩

/-! ## The claims -/

/-- C1: for every sequence of push_back/push_front/pop_back/pop_front
operations applied to a list created by `new()`, the run succeeds and the
resulting list satisfies chain consistency: there is an address chain with
`first = head?`, `last = getLast?` (hence head is null iff tail is null),
whose `next` links run front to back ending in null at the tail and whose
`prev` links run back to front ending in null at the head, adjacent nodes
pointing at each other (`chainSeg`).  Every prefix of the sequence is itself
such a sequence, so the invariant holds after each operation. -/
theorem C1_chain_consistency_invariant (T : Type) (ops : List (Op T)) :
    ∃ l', runOps (LinkedList.new T) ops = some l' ∧
      (∃ addrs, InvWith l' addrs) ∧ (l'.first = none ↔ l'.last = none) := by
  obtain ⟨l', m', h1, addrs, inv, _⟩ := runOps_repr ops (LinkedList.new T) [] (new_repr T)
  refine ⟨l', h1, ⟨addrs, inv⟩, ?_⟩
  rw [inv.first_eq, inv.last_eq]
  simp [List.head?_eq_none_iff, List.getLast?_eq_none_iff]

/-- C2: pushing `n` elements (any mix of push_back/push_front, no pops) onto a
new list and then dropping it destroys exactly `n` payloads — the destruction
trace has length `n` and is a permutation of the pushed values (each element
destroyed exactly once), and the final heap is empty (no leak); moreover the
destructor is a no-op on an empty list (null head), whatever the fuel. -/
theorem C2_drop_destroys_each_exactly_once (T : Type) (ps : List (PushOp T)) :
    (∃ l trace, runPushes (LinkedList.new T) ps = some l ∧
      dropList l ps.length = some ([], trace) ∧
      trace.length = ps.length ∧ trace.Perm (ps.map PushOp.val)) ∧
    (∀ (h : Heap T) (fuel : Nat), drop_loop fuel h none = some (h, [])) := by
  constructor
  · obtain ⟨l, m, h1, hr, hperm⟩ := runPushes_repr ps (LinkedList.new T) [] (new_repr T)
    obtain ⟨addrs, inv, hd⟩ := hr
    have hperm' : m.Perm (ps.map PushOp.val) := by simpa using hperm
    have hlen1 : m.length = ps.length := by
      rw [hperm'.length_eq, List.length_map]
    have hlen2 : m.length = addrs.length := by
      rw [← hd]; exact datas_length inv.chain
    have hlen3 : ps.length = addrs.length := by omega
    refine ⟨l, m, h1, ?_, hlen1, hperm'⟩
    rw [hlen3, drop_spec inv, hd]
  · intro h fuel
    exact drop_loop_none fuel h

/-- C5: on a list representing the payload sequence `m` (length `n`), running
the iterator from `iter_mut` for `n + 1` advance calls yields exactly the `n`
payloads in front-to-back order and then observes exhaustion (final cursor
null); on an empty list the first advance call immediately returns `none`. -/
theorem C5_iter_mut_yields_exactly_n {T : Type} {l : LinkedList T} {m : List T}
    (hr : Repr l m) :
    iterRun l.heap (m.length + 1) (iter_mut l) = some (m, ⟨none⟩) ∧
    (m = [] → iterNext l.heap (iter_mut l) = some (none, iter_mut l)) := by
  obtain ⟨addrs, inv, hd⟩ := hr
  have hlen : m.length = addrs.length := by
    rw [← hd]; exact datas_length inv.chain
  constructor
  · have hiter := iterRun_chain addrs none inv.chain
    show iterRun l.heap (m.length + 1) ⟨l.first⟩ = _
    rw [inv.first_eq, hlen, hiter, hd]
  · intro hm
    subst hm
    have haddr : addrs = [] := List.length_eq_zero.mp hlen.symm
    subst haddr
    show iterNext l.heap ⟨l.first⟩ = some (none, ⟨l.first⟩)
    have hf : l.first = none := inv.first_eq
    rw [hf]
    rfl

/-- C5 witness: the two-element sample list yields `[10, 20]` and exhausts. -/
theorem C5_witness :
    Repr sampleList [10, 20] ∧
    (iterRun sampleList.heap (([10, 20] : List Nat).length + 1) (iter_mut sampleList) =
        some ([10, 20], ⟨none⟩) ∧
      (([10, 20] : List Nat) = [] → iterNext sampleList.heap (iter_mut sampleList) =
        some (none, iter_mut sampleList))) :=
  ⟨sampleList_repr, C5_iter_mut_yields_exactly_n sampleList_repr⟩

/-- C9: on an empty list (head and tail both null), pop_back and pop_front
both return `none` and leave the list unchanged. -/
theorem C9_pop_on_empty {T : Type} (l : LinkedList T)
    (h1 : l.first = none) (h2 : l.last = none) :
    pop_back l = some (none, l) ∧ pop_front l = some (none, l) := by
  obtain ⟨hp, fr, fi, la⟩ := l
  have e1 : fi = none := h1
  have e2 : la = none := h2
  subst e1; subst e2
  exact ⟨rfl, rfl⟩

/-- C9 witness: the freshly created list. -/
theorem C9_witness :
    (LinkedList.new Nat).first = none ∧ (LinkedList.new Nat).last = none ∧
    (pop_back (LinkedList.new Nat) = some (none, LinkedList.new Nat) ∧
      pop_front (LinkedList.new Nat) = some (none, LinkedList.new Nat)) :=
  ⟨rfl, rfl, C9_pop_on_empty (LinkedList.new Nat) rfl rfl⟩

/-- C6: on any list satisfying the chain-consistency invariant, none of the
operations ever takes the invalid-dereference error branch of the embedding:
push_back, pop_back, push_front, pop_front, the iterator (any number of
advance calls), `for_each` and the destructor (with fuel the chain length,
enough for their loops to finish) all return `some`. -/
theorem C6_no_dangling_dereference {T : Type} {l : LinkedList T} {addrs : List Nat}
    (inv : InvWith l addrs) (t : T) (f : T → T) (fuel : Nat) :
    (push_back l t).isSome ∧ (pop_back l).isSome ∧
    (push_front l t).isSome ∧ (pop_front l).isSome ∧
    (iterRun l.heap fuel (iter_mut l)).isSome ∧
    (for_each l f addrs.length).isSome ∧
    (dropList l addrs.length).isSome := by
  refine ⟨?_, ?_, ?_, ?_, ?_, ?_, ?_⟩
  · obtain ⟨l', h1, _⟩ := push_back_spec inv t
    rw [h1]; rfl
  · obtain ⟨l', h1, _⟩ := pop_back_repr ⟨addrs, inv, rfl⟩
    rw [h1]; rfl
  · obtain ⟨l', h1, _⟩ := push_front_spec inv t
    rw [h1]; rfl
  · obtain ⟨l', h1, _⟩ := pop_front_repr ⟨addrs, inv, rfl⟩
    rw [h1]; rfl
  · have hs := iterRun_isSome addrs none inv.chain fuel
    show (iterRun l.heap fuel ⟨l.first⟩).isSome
    rw [inv.first_eq]
    exact hs
  · obtain ⟨h', hrun, _⟩ := for_each_loop_chain f addrs l.heap none inv.chain inv.nodup
    show (match for_each_loop f addrs.length l.heap l.first with
      | none => none
      | some (h2, tr) => some ({ l with heap := h2 }, tr)).isSome
    rw [inv.first_eq, hrun]
    rfl
  · rw [drop_spec inv]; rfl

/-- C6 witness: the sample list with a concrete payload, function and fuel. -/
theorem C6_witness :
    InvWith sampleList [0, 1] ∧
    ((push_back sampleList 30).isSome ∧ (pop_back sampleList).isSome ∧
      (push_front sampleList 30).isSome ∧ (pop_front sampleList).isSome ∧
      (iterRun sampleList.heap 5 (iter_mut sampleList)).isSome ∧
      (for_each sampleList (fun d => d + 1) ([0, 1] : List Nat).length).isSome ∧
      (dropList sampleList ([0, 1] : List Nat).length).isSome) :=
  ⟨sampleList_invWith, C6_no_dangling_dereference sampleList_invWith 30 (fun d => d + 1) 5⟩

/-- C10: `for_each` (absent from the spec's API table) succeeds on a
consistent list, visits exactly the chain's payload sequence front to back
applying `f` to each payload exactly once (the new heap stores the mapped
payloads along the same chain), and the visited sequence is exactly what
exhausting the `iter_mut` iterator yields, in the same order. -/
theorem C10_for_each_agrees_with_iter_mut {T : Type} {l : LinkedList T}
    {addrs : List Nat} (inv : InvWith l addrs) (f : T → T) :
    ∃ l' visited, for_each l f addrs.length = some (l', visited) ∧
      visited = datas l.heap addrs ∧
      datas l'.heap addrs = visited.map f ∧
      iterRun l.heap (visited.length + 1) (iter_mut l) = some (visited, ⟨none⟩) := by
  obtain ⟨h', hrun, hchar⟩ := for_each_loop_chain f addrs l.heap none inv.chain inv.nodup
  refine ⟨{ l with heap := h' }, datas l.heap addrs, ?_, rfl, ?_, ?_⟩
  · show (match for_each_loop f addrs.length l.heap l.first with
      | none => none
      | some (h2, tr) => some ({ l with heap := h2 }, tr)) = _
    rw [inv.first_eq, hrun]
  · show datas h' addrs = _
    apply datas_map_f f addrs
    intro a ha
    rw [hchar a, if_pos ha]
  · have hiter := iterRun_chain addrs none inv.chain
    have hlen : (datas l.heap addrs).length = addrs.length := datas_length inv.chain
    show iterRun l.heap ((datas l.heap addrs).length + 1) ⟨l.first⟩ = _
    rw [inv.first_eq, hlen, hiter]

/-- C10 witness: the sample list with a concrete function. -/
theorem C10_witness :
    InvWith sampleList [0, 1] ∧
    (∃ l' visited, for_each sampleList (fun d => d * 2) ([0, 1] : List Nat).length =
        some (l', visited) ∧
      visited = datas sampleList.heap [0, 1] ∧
      datas l'.heap [0, 1] = visited.map (fun d => d * 2) ∧
      iterRun sampleList.heap (visited.length + 1) (iter_mut sampleList) =
        some (visited, ⟨none⟩)) :=
  ⟨sampleList_invWith, C10_for_each_agrees_with_iter_mut sampleList_invWith (fun d => d * 2)⟩

/-- C3: pop_back on a consistent list returns `none` without mutation when the
tail is null; otherwise it returns `some` of the tail node's payload, sets
`last` to that node's `prev`, sets `first` to null when that `prev` is null
and otherwise nulls the new tail's `next`, deallocates the removed node
(its address is no longer live), and the chain-consistency invariant holds on
the reduced chain. -/
theorem C3_pop_back_behaviour {T : Type} {l : LinkedList T} {addrs : List Nat}
    (inv : InvWith l addrs) :
    (l.last = none → pop_back l = some (none, l)) ∧
    (∀ p, l.last = some p → ∃ nd l',
      hLookup l.heap p = some nd ∧
      pop_back l = some (some nd.data, l') ∧
      l'.last = nd.prev ∧
      (nd.prev = none → l'.first = none) ∧
      (∀ q, nd.prev = some q → ∃ qn', hLookup l'.heap q = some qn' ∧ qn'.next = none) ∧
      hLookup l'.heap p = none ∧
      InvWith l' addrs.dropLast) := by
  constructor
  · intro hla
    have haddrs : addrs = [] := by
      apply List.getLast?_eq_none_iff.mp
      rw [← inv.last_eq]
      exact hla
    exact (pop_back_spec inv).1 haddrs
  · intro p hla
    have hlast : addrs.getLast? = some p := by
      rw [← inv.last_eq]
      exact hla
    have hsplit : addrs = addrs.dropLast ++ [p] := eq_dropLast_append_of_getLast? hlast
    obtain ⟨nd, l', h1, h2, h3, _, h5, h6, _, h8, h9⟩ :=
      (pop_back_spec inv).2 addrs.dropLast p hsplit
    refine ⟨nd, l', h1, h2, h5, h8, ?_, h6, h3⟩
    intro q hq
    exact (h9 q hq).2

/-- C3 witness: the sample list; its tail node (payload `20`) is removed. -/
theorem C3_witness :
    InvWith sampleList [0, 1] ∧
    ((sampleList.last = none → pop_back sampleList = some (none, sampleList)) ∧
      (∀ p, sampleList.last = some p → ∃ nd l',
        hLookup sampleList.heap p = some nd ∧
        pop_back sampleList = some (some nd.data, l') ∧
        l'.last = nd.prev ∧
        (nd.prev = none → l'.first = none) ∧
        (∀ q, nd.prev = some q → ∃ qn', hLookup l'.heap q = some qn' ∧ qn'.next = none) ∧
        hLookup l'.heap p = none ∧
        InvWith l' ([0, 1] : List Nat).dropLast)) :=
  ⟨sampleList_invWith, C3_pop_back_behaviour sampleList_invWith⟩

/-- C4: push_back on a consistent list always succeeds; it allocates a fresh
node holding the value with `next` null and `prev` the old tail; if the list
was empty the new node becomes both `first` and `last`, otherwise the old
tail's `next` is redirected to the new node and `first` is unchanged; in both
cases `last` becomes the new node, and chain consistency is preserved with the
new address appended to the chain. -/
theorem C4_push_back_behaviour {T : Type} {l : LinkedList T} {addrs : List Nat}
    (inv : InvWith l addrs) (t : T) :
    ∃ l', push_back l t = some l' ∧
      hLookup l'.heap l.fresh = some ⟨t, none, l.last⟩ ∧
      l'.last = some l.fresh ∧
      (l.last = none → l'.first = some l.fresh) ∧
      (∀ q, l.last = some q → l'.first = l.first ∧
        ∃ qn', hLookup l'.heap q = some qn' ∧ qn'.next = some l.fresh) ∧
      InvWith l' (addrs ++ [l.fresh]) := by
  obtain ⟨l', h1, h2, _, h4, h5, _, h7, h8⟩ := push_back_spec inv t
  exact ⟨l', h1, h4, h5, h7, h8, h2⟩

/-- C4 witness: pushing `30` onto the sample list. -/
theorem C4_witness :
    InvWith sampleList [0, 1] ∧
    (∃ l', push_back sampleList 30 = some l' ∧
      hLookup l'.heap sampleList.fresh = some ⟨30, none, sampleList.last⟩ ∧
      l'.last = some sampleList.fresh ∧
      (sampleList.last = none → l'.first = some sampleList.fresh) ∧
      (∀ q, sampleList.last = some q → l'.first = sampleList.first ∧
        ∃ qn', hLookup l'.heap q = some qn' ∧ qn'.next = some sampleList.fresh) ∧
      InvWith l' ([0, 1] ++ [sampleList.fresh])) :=
  ⟨sampleList_invWith, C4_push_back_behaviour sampleList_invWith 30⟩

/-- C7: `push_back x` then `pop_back` on any consistent list returns `Some x`
and restores the prior structural state: same `first`, same `last`, every
address maps to the same node as before (so the same payload sequence and the
same link structure). -/
theorem C7_push_back_pop_back_roundtrip {T : Type} {l : LinkedList T}
    {addrs : List Nat} (inv : InvWith l addrs) (x : T) :
    ∃ l' l'', push_back l x = some l' ∧ pop_back l' = some (some x, l'') ∧
      l''.first = l.first ∧ l''.last = l.last ∧
      (∀ a, hLookup l''.heap a = hLookup l.heap a) ∧
      datas l''.heap addrs = datas l.heap addrs := by
  obtain ⟨hp, fr, fi, la⟩ := l
  have fresh_not_mem : fr ∉ addrs := fun hmem => lt_irrefl fr (inv.bounded fr hmem)
  have hfr_none : hLookup hp fr = none := by
    cases hlk : hLookup hp fr with
    | none => rfl
    | some nd => exact absurd (inv.dom fr (by simp [hlk])) fresh_not_mem
  cases la with
  | none =>
      have hgl : addrs.getLast? = none := inv.last_eq.symm
      have haddrs : addrs = [] := List.getLast?_eq_none_iff.mp hgl
      subst haddrs
      have hfi : fi = none := inv.first_eq
      subst hfi
      refine ⟨⟨(fr, ⟨x, none, none⟩) :: hp, fr + 1, some fr, some fr⟩,
        ⟨hFree ((fr, (⟨x, none, none⟩ : Node T)) :: hp) fr, fr + 1, none, none⟩,
        rfl, ?_, rfl, rfl, ?_, rfl⟩
      · have hlk1 : hLookup ((fr, (⟨x, none, none⟩ : Node T)) :: hp) fr
            = some ⟨x, none, none⟩ := by
          rw [hLookup_cons, if_pos rfl]
        simp only [pop_back, hlk1]
      · intro a
        rw [hLookup_hFree]
        by_cases hafr : a = fr
        · rw [if_pos hafr, hafr, hfr_none]
        · rw [if_neg hafr, hLookup_cons, if_neg (fun hh => hafr hh.symm)]
  | some q =>
      have hlast : addrs.getLast? = some q := inv.last_eq.symm
      have hqmem : q ∈ addrs := getLast?_mem hlast
      have hqlt : q < fr := inv.bounded q hqmem
      have hqfr : q ≠ fr := fun hh => by omega
      have hchain : chainSeg hp none addrs := inv.chain
      have hsplit : addrs = addrs.dropLast ++ [q] := eq_dropLast_append_of_getLast? hlast
      have hchain' : chainSeg hp none (addrs.dropLast ++ [q]) := by
        rw [← hsplit]; exact hchain
      obtain ⟨qn, hq, hqnext, _⟩ := chainSeg_getLast addrs.dropLast hchain'
      have hq1 : hLookup ((fr, (⟨x, none, some q⟩ : Node T)) :: hp) q = some qn := by
        rw [hLookup_cons, if_neg (fun hh => hqfr hh.symm), hq]
      set h1 : Heap T := hUpdate ((fr, (⟨x, none, some q⟩ : Node T)) :: hp) q
          ⟨qn.data, some fr, qn.prev⟩ with hh1
      have hpush : push_back (⟨hp, fr, fi, some q⟩ : LinkedList T) x =
          some ⟨h1, fr + 1, fi, some fr⟩ := by
        simp only [push_back, hq1, hh1]
      have hlkfr : hLookup h1 fr = some ⟨x, none, some q⟩ := by
        rw [hh1, hLookup_hUpdate, if_neg hqfr, hLookup_cons, if_pos rfl]
      have hlkq : hLookup h1 q = some ⟨qn.data, some fr, qn.prev⟩ := by
        rw [hh1, hLookup_hUpdate, if_pos rfl]
      set h2 : Heap T := hFree (hUpdate h1 q ⟨qn.data, none, qn.prev⟩) fr with hh2
      have hpop : pop_back (⟨h1, fr + 1, fi, some fr⟩ : LinkedList T) =
          some (some x, ⟨h2, fr + 1, fi, some q⟩) := by
        simp only [pop_back, hlkfr, hlkq, hh2]
      have hlook : ∀ a, hLookup h2 a = hLookup hp a := by
        intro a
        by_cases hafr : a = fr
        · rw [hafr, hh2, hLookup_hFree_self, hfr_none]
        · rw [hh2, hLookup_hFree_ne _ _ _ hafr, hLookup_hUpdate]
          by_cases haq : q = a
          · rw [if_pos haq, ← haq, hq, ← hqnext]
          · rw [if_neg haq, hh1, hLookup_hUpdate, if_neg haq, hLookup_cons,
              if_neg (fun hh => hafr hh.symm)]
      refine ⟨⟨h1, fr + 1, fi, some fr⟩, ⟨h2, fr + 1, fi, some q⟩, hpush, hpop,
        rfl, rfl, hlook, ?_⟩
      exact datas_congr addrs (fun a _ => hlook a)

/-- C7 witness: the round trip with `30` on the sample list. -/
theorem C7_witness :
    InvWith sampleList [0, 1] ∧
    (∃ l' l'', push_back sampleList 30 = some l' ∧ pop_back l' = some (some 30, l'') ∧
      l''.first = sampleList.first ∧ l''.last = sampleList.last ∧
      (∀ a, hLookup l''.heap a = hLookup sampleList.heap a) ∧
      datas l''.heap [0, 1] = datas sampleList.heap [0, 1]) :=
  ⟨sampleList_invWith, C7_push_back_pop_back_roundtrip sampleList_invWith 30⟩

/-- C8: pushing the values `ts` at one end and then popping the same number of
times from the same end returns exactly `ts` in reverse insertion order
(wrapped in `some`), restoring the prior payload sequence — for both ends;
and on a list built by push_back operations only, pop_front returns the values
in original insertion order (queue behaviour). -/
theorem C8_stack_and_queue_behaviour {T : Type} (ts : List T) {l : LinkedList T}
    {m : List T} (hr : Repr l m) :
    (∃ la lb, pushBackAll l ts = some la ∧
      popBackN la ts.length = some (ts.reverse.map some, lb) ∧ Repr lb m) ∧
    (∃ la lb, pushFrontAll l ts = some la ∧
      popFrontN la ts.length = some (ts.reverse.map some, lb) ∧ Repr lb m) ∧
    (∃ la lb, pushBackAll (LinkedList.new T) ts = some la ∧
      popFrontN la ts.length = some (ts.map some, lb) ∧ Repr lb []) := by
  refine ⟨?_, ?_, ?_⟩
  · obtain ⟨la, h1, hra⟩ := pushBackAll_repr ts l m hr
    obtain ⟨lb, h2, hrb⟩ := popBackN_repr ts la m hra
    exact ⟨la, lb, h1, h2, hrb⟩
  · obtain ⟨la, h1, hra⟩ := pushFrontAll_repr ts l m hr
    obtain ⟨lb, h2, hrb⟩ := popFrontN_repr ts.reverse la m hra
    rw [List.length_reverse] at h2
    exact ⟨la, lb, h1, h2, hrb⟩
  · obtain ⟨la, h1, hra⟩ := pushBackAll_repr ts (LinkedList.new T) [] (new_repr T)
    have hra' : Repr la (ts ++ []) := by
      rw [List.append_nil]
      exact hra
    obtain ⟨lb, h2, hrb⟩ := popFrontN_repr ts la [] hra'
    exact ⟨la, lb, h1, h2, hrb⟩

/-- C8 witness: pushing `[1, 2, 3]` on the sample list and on a fresh list. -/
theorem C8_witness :
    Repr sampleList [10, 20] ∧
    ((∃ la lb, pushBackAll sampleList [1, 2, 3] = some la ∧
        popBackN la ([1, 2, 3] : List Nat).length =
          some (([1, 2, 3] : List Nat).reverse.map some, lb) ∧ Repr lb [10, 20]) ∧
      (∃ la lb, pushFrontAll sampleList [1, 2, 3] = some la ∧
        popFrontN la ([1, 2, 3] : List Nat).length =
          some (([1, 2, 3] : List Nat).reverse.map some, lb) ∧ Repr lb [10, 20]) ∧
      (∃ la lb, pushBackAll (LinkedList.new Nat) [1, 2, 3] = some la ∧
        popFrontN la ([1, 2, 3] : List Nat).length =
          some (([1, 2, 3] : List Nat).map some, lb) ∧ Repr lb [])) :=
  ⟨sampleList_repr, C8_stack_and_queue_behaviour [1, 2, 3] sampleList_repr⟩

end RustList
